import Mathlib

/-
Shallow embedding of the word-placement game engine in `scrabble.py`.

Conventions of the embedding:
* Python lists of lists become `List (List Char)`; a cell holds `'.'` when empty.
* Python integer indexing is modelled by `pyIdx`: a nonnegative index must be
  below the length, a negative index wraps around Python-style, and any other
  index is an `IndexError`, modelled as `none`.
* Fallible code returns `Option`: `none` models a raised exception.
* `random.shuffle` is modelled by quantifying over (or instantiating) the
  already-shuffled pool; `input()` values become explicit arguments.
-/

set_option maxHeartbeats 1000000

/-- Python list indexing: `xs[i]` for `i : Int` on a list of length `len`.
Returns the physical (nonnegative) index, or `none` for an IndexError. -/
def pyIdx (len : Nat) (i : Int) : Option Nat :=
  if 0 ≤ i ∧ i < (len : Int) then some i.toNat
  else if -(len : Int) ≤ i ∧ i < 0 then some ((len : Int) + i).toNat
  else none

/-- Direction enum from `scrabble.py` (`class Direction(IntEnum)`). -/
inductive Direction where
  | ACROSS
  | DOWN
deriving DecidableEq, Repr

/-- The board: `size` and `_tiles`, a size×size grid of one-character strings,
`"."` for an empty cell (`class Board`). -/
structure Board where
  size : Nat
  tiles : List (List Char)
deriving DecidableEq, Repr

/-- Board construction (`Board.__init__`): a 15×15 grid of `"."`. -/
def Board.init : Board :=
  { size := 15, tiles := List.replicate 15 (List.replicate 15 '.') }

/-- Method `Board.tile`: `self._tiles[row][col]` with Python indexing; `none`
models an IndexError. -/
def Board.tile (b : Board) (pos : Int × Int) : Option Char :=
  match pyIdx b.tiles.length pos.1 with
  | none => none
  | some r =>
    match b.tiles.get? r with
    | none => none
    | some row =>
      match pyIdx row.length pos.2 with
      | none => none
      | some c => row.get? c

/-- Method `Board.set_tile`: `self._tiles[row][col] = tile` with Python
indexing; `none` models an IndexError. -/
def Board.set_tile (b : Board) (pos : Int × Int) (t : Char) : Option Board :=
  match pyIdx b.tiles.length pos.1 with
  | none => none
  | some r =>
    match b.tiles.get? r with
    | none => none
    | some row =>
      match pyIdx row.length pos.2 with
      | none => none
      | some c => some { b with tiles := b.tiles.set r (row.set c t) }

/-- Method `Board.in_bounds`: `0 <= row < self.size and 0 <= col < self.size`. -/
def Board.in_bounds (b : Board) (pos : Int × Int) : Bool :=
  0 ≤ pos.1 && pos.1 < (b.size : Int) && 0 ≤ pos.2 && pos.2 < (b.size : Int)

/-- Method `Board.is_empty`: `self.in_bounds(pos) and self.tile(pos) == "."`;
the short-circuit `and` means `tile` is only evaluated in bounds, where it can
still raise on a malformed grid, hence the `Option`. -/
def Board.is_empty (b : Board) (pos : Int × Int) : Option Bool :=
  if b.in_bounds pos then (b.tile pos).map (fun t => t == '.') else some false

/-- The start coordinate that `place_word`'s length check inspects:
`start[1]` for ACROSS, `start[0]` for DOWN. -/
def checkedStart (start : Int × Int) (dir : Direction) : Int :=
  match dir with
  | Direction.ACROSS => start.2
  | Direction.DOWN => start.1

/-- The span of positions a word of length `n` would occupy: the `i`-th cell is
`(start[0], start[1] + i)` for ACROSS and `(start[0] + i, start[1])` for DOWN. -/
def spanCells (start : Int × Int) (dir : Direction) (n : Nat) : List (Int × Int) :=
  match dir with
  | Direction.ACROSS => (List.range n).map fun (i : Nat) => (start.1, start.2 + (i : Int))
  | Direction.DOWN => (List.range n).map fun (i : Nat) => (start.1 + (i : Int), start.2)

/-- The validation loop of `Board.place_word`: for each `(cell, letter)`,
`if not self.is_empty(cell) and self.tile(cell) != letter: return False`. -/
def Board.checkCells (b : Board) : List ((Int × Int) × Char) → Option Bool
  | [] => some true
  | (p, l) :: rest =>
    match b.is_empty p with
    | none => none
    | some e =>
      if e then b.checkCells rest
      else
        match b.tile p with
        | none => none
        | some t => if t = l then b.checkCells rest else some false

/-- The mutation loop of `Board.place_word`: `self.set_tile(cell, letter)`
for each pair in turn. -/
def Board.writeCells (b : Board) : List ((Int × Int) × Char) → Option Board
  | [] => some b
  | (p, l) :: rest =>
    match b.set_tile p l with
    | none => none
    | some b1 => b1.writeCells rest

/-- Method `Board.place_word`: length check on the direction-advancing
coordinate, then the validation loop, then the mutation loop.  Result
`some (flag, board)` is the returned boolean together with the board object
after the call; `none` models a raised IndexError. -/
def Board.place_word (b : Board) (word : List Char) (start : Int × Int)
    (dir : Direction) : Option (Bool × Board) :=
  if checkedStart start dir + (word.length : Int) > (b.size : Int) then some (false, b)
  else
    match b.checkCells ((spanCells start dir word.length).zip word) with
    | none => none
    | some ok =>
      if ok then
        match b.writeCells ((spanCells start dir word.length).zip word) with
        | none => none
        | some b1 => some (true, b1)
      else some (false, b)

/-- Well-formedness of the grid: `_tiles` is a `size`×`size` matrix.  This
holds for `Board.init` and is preserved by `set_tile`. -/
def Board.WF (b : Board) : Prop :=
  b.tiles.length = b.size ∧ ∀ row ∈ b.tiles, row.length = b.size

instance (b : Board) : Decidable b.WF := by
  unfold Board.WF
  infer_instance

/-- Number of non-empty cells of the board. -/
def Board.nonEmptyCount (b : Board) : Nat :=
  (b.tiles.map (fun row => row.countP (fun ch => ch != '.'))).sum

/-- The tile pool (`class TileManager`): the list of letters not yet drawn;
`pool.pop()` takes from the end of the list. -/
structure TileManager where
  pool : List Char
deriving DecidableEq, Repr

/-- Expansion of the fixed frequency table of `TileManager.initialize_tile_pool`
in its dictionary order, before `random.shuffle`.  A shuffled pool is any
permutation of this list. -/
def init_tile_pool : List Char :=
  [('A', 9), ('B', 2), ('C', 2), ('D', 4), ('E', 12), ('F', 2), ('G', 3),
   ('H', 2), ('I', 9), ('J', 1), ('K', 1), ('L', 4), ('M', 2), ('N', 6),
   ('O', 8), ('P', 2), ('Q', 1), ('R', 6), ('S', 4), ('T', 6), ('U', 4),
   ('V', 2), ('W', 2), ('X', 1), ('Y', 2), ('Z', 1)].foldl
    (fun pool tc => pool ++ List.replicate tc.2 tc.1) []

/-- The comprehension in `TileManager.draw_tiles`:
`[self.pool.pop() for _ in range(num) if self.pool]`.  Each of the `num`
iterations re-checks emptiness and pops from the end when possible.  Returns
the drawn letters (in pop order) and the remaining pool. -/
def drawLoop : List Char → Nat → List Char × List Char
  | pool, 0 => ([], pool)
  | pool, Nat.succ n =>
    match pool.getLast? with
    | none => drawLoop pool n
    | some t =>
      let r := drawLoop pool.dropLast n
      (t :: r.1, r.2)

/-- Method `TileManager.draw_tiles`. -/
def TileManager.draw_tiles (tm : TileManager) (num : Nat) : List Char × TileManager :=
  let r := drawLoop tm.pool num
  (r.1, { pool := r.2 })

/-- Driver for a sequence of `draw_tiles` calls: returns the final manager and
the total number of tiles returned by all the draws. -/
def TileManager.runDraws (tm : TileManager) : List Nat → TileManager × Nat
  | [] => (tm, 0)
  | n :: ns =>
    let r := tm.draw_tiles n
    let rest := r.2.runDraws ns
    (rest.1, r.1.length + rest.2)

/-- Python `list.remove(ch)`: drop the first occurrence, `none` models the
ValueError raised when `ch` is absent. -/
def pyRemove : List Char → Char → Option (List Char)
  | [], _ => none
  | x :: xs, ch => if x = ch then some xs else (pyRemove xs ch).map (fun ys => x :: ys)

/-- The hand-update loop of `GameState.player_turn`:
`for letter in word: if letter in hand: hand.remove(letter)`. -/
def updateHand : List Char → List Char → Option (List Char)
  | hand, [] => some hand
  | hand, ch :: rest =>
    if ch ∈ hand then
      match pyRemove hand ch with
      | none => none
      | some h2 => updateHand h2 rest
    else updateHand hand rest

/-- Game state (`class GameState`): board, tile manager and the two hands of
the `players` dict. -/
structure GameState where
  board : Board
  tile_manager : TileManager
  human : List Char
  computer : List Char
deriving DecidableEq, Repr

/-- Constructor `GameState.__init__`; `pool` stands for the shuffled pool the
`TileManager` constructor builds (an arbitrary permutation of
`init_tile_pool`). -/
def GameState.init (pool : List Char) : GameState :=
  { board := Board.init, tile_manager := { pool := pool }, human := [], computer := [] }

/-- Method `GameState.draw_player_tiles`: replace the human hand with a draw
of 7. -/
def GameState.draw_player_tiles (gs : GameState) : GameState :=
  let r := gs.tile_manager.draw_tiles 7
  { gs with human := r.1, tile_manager := r.2 }

/-- Method `GameState.player_turn`, with the console inputs as arguments:
`word` is the stripped and upper-cased word, `rowIn`/`colIn` the raw 1-based
integers (the method subtracts 1), `dirIn` the direction token (anything but
"ACROSS" falls back to DOWN).  `none` models an uncaught exception from
`place_word`. -/
def GameState.player_turn (gs : GameState) (word : List Char) (rowIn colIn : Int)
    (dirIn : String) : Option GameState :=
  let row := rowIn - 1
  let col := colIn - 1
  let direction := if dirIn = "ACROSS" then Direction.ACROSS else Direction.DOWN
  if word = [] then some gs
  else
    match gs.board.place_word word (row, col) direction with
    | none => none
    | some r =>
      if r.1 then
        match updateHand gs.human word with
        | none => none
        | some hand =>
          let drawn := gs.tile_manager.draw_tiles word.length
          some { gs with board := r.2, human := hand ++ drawn.1, tile_manager := drawn.2 }
      else some { gs with board := r.2 }

/-- Total tile count of a state: pool, plus both hands, plus letters on the
board. -/
def GameState.totalTiles (gs : GameState) : Nat :=
  gs.tile_manager.pool.length + gs.human.length + gs.computer.length +
    gs.board.nonEmptyCount

/-- Physical grid coordinates reached by a position, on a well-formed board of
side `s`:  both components resolved by `pyIdx`. -/
def physOf (s : Nat) (p : Int × Int) : Option (Nat × Nat) :=
  match pyIdx s p.1, pyIdx s p.2 with
  | some r, some c => some (r, c)
  | _, _ => none

/-- The character stored at physical coordinates `(r, c)`. -/
def Board.physTile (b : Board) (r c : Nat) : Char :=
  (b.tiles.getD r []).getD c '.'

/-- Grid update at physical coordinates. -/
def Board.setPhys (b : Board) (r c : Nat) (t : Char) : Board :=
  { b with tiles := b.tiles.set r ((b.tiles.getD r []).set c t) }

/-- A span entry whose cell is empty and whose letter is a real letter: the
write puts a new letter on a previously empty cell. -/
def Board.EmptyCell (b : Board) (pl : (Int × Int) × Char) : Prop :=
  b.is_empty pl.1 = some true ∧ pl.2 ≠ '.'

/-- A span entry whose cell already reads exactly as the letter to write: the
write is a no-op. -/
def Board.NoopCell (b : Board) (pl : (Int × Int) × Char) : Prop :=
  b.tile pl.1 = some pl.2

/-- Board with "CAT" placed at (7,7) ACROSS, used to instantiate theorems. -/
def boardCAT : Board :=
  ((Board.init.place_word ['C', 'A', 'T'] (7, 7) Direction.ACROSS).getD
    (false, Board.init)).2

/-- Game state right after the initial draw of 7 from the unshuffled pool. -/
def gsStart : GameState :=
  (GameState.init init_tile_pool).draw_player_tiles

/-- State after `gsStart` plays "WV" (both letters in hand) at (7,7) ACROSS. -/
def gsAfterWV : GameState :=
  (gsStart.player_turn ['W', 'V'] 8 8 "ACROSS").getD (GameState.init [])

/-! ### List helper lemmas -/

theorem lget_of_lt {α : Type} (l : List α) (n : Nat) (h : n < l.length) :
    ∃ a, l.get? n = some a := by
  induction l generalizing n with
  | nil => simp at h
  | cons x xs ih =>
    cases n with
    | zero => exact ⟨x, rfl⟩
    | succ m => exact ih m (by simpa using h)

theorem lget_mem {α : Type} {l : List α} {n : Nat} {a : α} (h : l.get? n = some a) :
    a ∈ l := by
  induction l generalizing n with
  | nil => simp [List.get?] at h
  | cons x xs ih =>
    cases n with
    | zero => simp [List.get?] at h; simp [h]
    | succ m => exact List.mem_cons_of_mem x (ih h)

theorem lgetD_eq {α : Type} (l : List α) (n : Nat) (d : α) :
    l.getD n d = (l.get? n).getD d := by
  induction l generalizing n with
  | nil => cases n <;> rfl
  | cons x xs ih => cases n with
    | zero => rfl
    | succ m => exact ih m

theorem lset_self {α : Type} {l : List α} {n : Nat} {a : α} (h : l.get? n = some a) :
    l.set n a = l := by
  induction l generalizing n with
  | nil => rfl
  | cons x xs ih =>
    cases n with
    | zero => simp [List.get?] at h; simp [List.set, h]
    | succ m => simp [List.set, ih h]

theorem lset_get?_eq {α : Type} (l : List α) (n : Nat) (a : α) (h : n < l.length) :
    (l.set n a).get? n = some a := by
  induction l generalizing n with
  | nil => simp at h
  | cons x xs ih =>
    cases n with
    | zero => rfl
    | succ m => simpa [List.set] using ih m (by simpa using h)

theorem lset_get?_ne {α : Type} (l : List α) (n m : Nat) (a : α) (h : m ≠ n) :
    (l.set n a).get? m = l.get? m := by
  induction l generalizing n m with
  | nil => rfl
  | cons x xs ih =>
    cases n with
    | zero =>
      cases m with
      | zero => exact absurd rfl h
      | succ k => rfl
    | succ n' =>
      cases m with
      | zero => rfl
      | succ k => simpa [List.set] using ih n' k (fun e => h (by omega))

theorem lmem_set {α : Type} {l : List α} {n : Nat} {a x : α} (h : x ∈ l.set n a) :
    x = a ∨ x ∈ l := by
  induction l generalizing n with
  | nil => simp [List.set] at h
  | cons y ys ih =>
    cases n with
    | zero =>
      rcases List.mem_cons.1 h with h1 | h1
      · exact Or.inl h1
      · exact Or.inr (List.mem_cons_of_mem y h1)
    | succ m =>
      rcases List.mem_cons.1 h with h1 | h1
      · exact Or.inr (by simp [h1])
      · rcases ih h1 with h2 | h2
        · exact Or.inl h2
        · exact Or.inr (List.mem_cons_of_mem y h2)

theorem lcountP_set {α : Type} (l : List α) (n : Nat) (a x : α) (p : α → Bool)
    (h : l.get? n = some x) :
    (l.set n a).countP p + (if p x then 1 else 0) =
      l.countP p + (if p a then 1 else 0) := by
  induction l generalizing n with
  | nil => simp [List.get?] at h
  | cons y ys ih =>
    cases n with
    | zero =>
      simp only [List.get?] at h
      injection h with h; subst h
      simp only [List.set, List.countP_cons]
      omega
    | succ m =>
      simp only [List.get?] at h
      simp only [List.set, List.countP_cons]
      have := ih m h
      omega

theorem lsum_map_set {α : Type} (l : List α) (n : Nat) (a x : α) (f : α → Nat)
    (h : l.get? n = some x) :
    ((l.set n a).map f).sum + f x = (l.map f).sum + f a := by
  induction l generalizing n with
  | nil => simp [List.get?] at h
  | cons y ys ih =>
    cases n with
    | zero =>
      simp only [List.get?] at h
      injection h with h; subst h
      simp only [List.set, List.map_cons, List.sum_cons]
      omega
    | succ m =>
      simp only [List.get?] at h
      simp only [List.set, List.map_cons, List.sum_cons]
      have := ih m h
      omega

theorem lgetLast?_none {α : Type} {l : List α} (h : l.getLast? = none) : l = [] := by
  cases l with
  | nil => rfl
  | cons x xs => simp [List.getLast?] at h

theorem lgetLast?_dropLast {α : Type} {l : List α} {t : α} (h : l.getLast? = some t) :
    l.dropLast ++ [t] = l := by
  have hne : l ≠ [] := by
    intro e; subst e; simp at h
  have h2 : l.getLast hne = t := by
    have := List.getLast?_eq_getLast l hne
    rw [this] at h
    injection h
  rw [← h2]
  exact List.dropLast_append_getLast hne

/-! ### pyIdx and bounds lemmas -/

theorem pyIdx_lt {n : Nat} {i : Int} {k : Nat} (h : pyIdx n i = some k) : k < n := by
  unfold pyIdx at h
  split_ifs at h with h1 h2
  · injection h with h; omega
  · injection h with h; omega

theorem pyIdx_range {n : Nat} {i : Int} {k : Nat} (h : pyIdx n i = some k) :
    -(n : Int) ≤ i ∧ i < (n : Int) := by
  unfold pyIdx at h
  split_ifs at h with h1 h2
  · omega
  · omega

theorem pyIdx_of_nonneg {n : Nat} {i : Int} (h0 : 0 ≤ i) (h1 : i < (n : Int)) :
    pyIdx n i = some i.toNat := by
  unfold pyIdx
  rw [if_pos ⟨h0, h1⟩]

theorem in_bounds_iff {b : Board} {p : Int × Int} :
    b.in_bounds p = true ↔
      0 ≤ p.1 ∧ p.1 < (b.size : Int) ∧ 0 ≤ p.2 ∧ p.2 < (b.size : Int) := by
  simp [Board.in_bounds, Bool.and_eq_true, decide_eq_true_eq, and_assoc]

theorem physOf_of_in_bounds {b : Board} {p : Int × Int} (h : b.in_bounds p = true) :
    physOf b.size p = some (p.1.toNat, p.2.toNat) := by
  rcases in_bounds_iff.1 h with ⟨h1, h2, h3, h4⟩
  unfold physOf
  rw [pyIdx_of_nonneg h1 h2, pyIdx_of_nonneg h3 h4]

theorem physOf_bounds {s : Nat} {p : Int × Int} {r c : Nat}
    (h : physOf s p = some (r, c)) : r < s ∧ c < s := by
  unfold physOf at h
  cases h1 : pyIdx s p.1 with
  | none => rw [h1] at h; cases h2 : pyIdx s p.2 <;> simp [h2] at h
  | some r' =>
    cases h2 : pyIdx s p.2 with
    | none => rw [h1, h2] at h; simp at h
    | some c' =>
      rw [h1, h2] at h
      injection h with h
      injection h with hr hc
      subst hr; subst hc
      exact ⟨pyIdx_lt h1, pyIdx_lt h2⟩

theorem in_bounds_phys_inj {b : Board} {p q : Int × Int}
    (hp : b.in_bounds p = true) (hq : b.in_bounds q = true)
    (h : (p.1.toNat, p.2.toNat) = (q.1.toNat, q.2.toNat)) : p = q := by
  rcases in_bounds_iff.1 hp with ⟨h1, _, h3, _⟩
  rcases in_bounds_iff.1 hq with ⟨h5, _, h7, _⟩
  injection h with ha hb
  have : p.1 = q.1 := by omega
  have : p.2 = q.2 := by omega
  cases p; cases q
  simp_all

/-! ### Draw lemmas -/

theorem drawLoop_empty (n : Nat) : drawLoop [] n = ([], []) := by
  induction n with
  | zero => rfl
  | succ m ih => simpa [drawLoop] using ih

theorem drawLoop_length (pool : List Char) (n : Nat) :
    (drawLoop pool n).1.length + (drawLoop pool n).2.length = pool.length := by
  induction n generalizing pool with
  | zero => simp [drawLoop]
  | succ m ih =>
    cases h : pool.getLast? with
    | none =>
      have := lgetLast?_none h
      subst this
      simp [drawLoop, h, ih]
    | some t =>
      have hd : pool.dropLast ++ [t] = pool := lgetLast?_dropLast h
      have hlen : pool.dropLast.length + 1 = pool.length := by
        rw [← hd]; simp
      have := ih pool.dropLast
      simp only [drawLoop, h, List.length_cons]
      omega

theorem drawLoop_all (pool : List Char) (n : Nat) (h : pool.length ≤ n) :
    drawLoop pool n = (pool.reverse, []) := by
  induction n generalizing pool with
  | zero =>
    have : pool = [] := by
      cases pool with
      | nil => rfl
      | cons x xs => simp at h
    subst this
    rfl
  | succ m ih =>
    cases hl : pool.getLast? with
    | none =>
      have := lgetLast?_none hl
      subst this
      simp [drawLoop, hl, drawLoop_empty]
    | some t =>
      have hd : pool.dropLast ++ [t] = pool := lgetLast?_dropLast hl
      have hlen : pool.dropLast.length + 1 = pool.length := by
        rw [← hd]; simp
      have ihd := ih pool.dropLast (by omega)
      have hrev : pool.reverse = t :: pool.dropLast.reverse := by
        conv_lhs => rw [← hd]
        simp
      simp only [drawLoop, hl, ihd, hrev]

/-! ### Hand update lemmas -/

theorem pyRemove_mem (l : List Char) (ch : Char) (h : ch ∈ l) :
    pyRemove l ch = some (l.erase ch) := by
  induction l with
  | nil => simp at h
  | cons x xs ih =>
    by_cases hx : x = ch
    · subst hx
      simp [pyRemove, List.erase_cons_head]
    · have hmem : ch ∈ xs := by
        rcases List.mem_cons.1 h with h1 | h1
        · exact absurd h1.symm hx
        · exact h1
      have hbe : (x == ch) = false := by simp [hx]
      simp [pyRemove, hx, ih hmem, List.erase_cons, hbe]

theorem updateHand_eq (word hand : List Char) :
    updateHand hand word = some (word.foldl (fun h ch => h.erase ch) hand) := by
  induction word generalizing hand with
  | nil => rfl
  | cons ch rest ih =>
    by_cases hm : ch ∈ hand
    · simp only [updateHand, if_pos hm, pyRemove_mem hand ch hm, List.foldl_cons]
      exact ih (hand.erase ch)
    · simp only [updateHand, if_neg hm, List.foldl_cons, List.erase_of_not_mem hm]
      exact ih hand

theorem foldl_erase_length (word : List Char) :
    ∀ hand : List Char, (∀ ch ∈ word, word.count ch ≤ hand.count ch) →
      (word.foldl (fun h ch => h.erase ch) hand).length + word.length = hand.length := by
  induction word with
  | nil => intro hand _; simp
  | cons ch rest ih =>
    intro hand hcount
    have hch : ch ∈ hand := by
      have h1 := hcount ch (List.mem_cons_self ch rest)
      have h2 : 0 < (ch :: rest).count ch := by
        simp [List.count_cons_self]
      have h3 : 0 < hand.count ch := by omega
      exact List.count_pos_iff.1 h3
    have hrest : ∀ c ∈ rest, rest.count c ≤ (hand.erase ch).count c := by
      intro c hc
      by_cases hcc : c = ch
      · have h1 := hcount ch (List.mem_cons_self ch rest)
        have h2 : (ch :: rest).count ch = rest.count ch + 1 := List.count_cons_self ch rest
        have h3 : (hand.erase ch).count ch = hand.count ch - 1 := List.count_erase_self ch hand
        rw [hcc]
        omega
      · have h1 := hcount c (List.mem_cons_of_mem ch hc)
        have h2 : (ch :: rest).count c = rest.count c := by
          rw [List.count_cons_of_ne hcc]
        have h3 : (hand.erase ch).count c = hand.count c :=
          List.count_erase_of_ne hcc hand
        omega
    have hlen : (hand.erase ch).length + 1 = hand.length := by
      have := List.length_erase_of_mem hch
      have : 0 < hand.length := List.length_pos_of_mem hch
      omega
    have := ih (hand.erase ch) hrest
    simp only [List.foldl_cons, List.length_cons]
    omega

/-! ### Claim C1: bounds rejection -/

/-- C1, counterexample.  The claim says every span reaching outside the board
makes `place_word` return `false` with no mutation.  In the code only the
direction-advancing coordinate is length-checked: for the span cell `(15, 0)`
(row at the board size) the validation loop evaluates
`self.tile((15, 0))`, which raises an IndexError instead of returning `false`. -/
theorem place_word_oob_row_errors :
    Board.init.in_bounds (15, 0) = false ∧
    Board.place_word Board.init ['A'] (15, 0) Direction.ACROSS = none := by
  constructor
  · rfl
  · rfl

/-- C1, amended: `place_word` is guaranteed to fail validation, return `false`
and leave the board untouched when the direction-advancing coordinate overruns,
that is when `start[1] + len(word) > size` for ACROSS or
`start[0] + len(word) > size` for DOWN.  (Other out-of-board spans are not
rejected by the length check: an index at or above `size` on the unchecked
axis raises an IndexError, and negative indices wrap around Python-style.) -/
theorem place_word_overrun_returns_false (b : Board) (word : List Char)
    (start : Int × Int) (dir : Direction)
    (h : checkedStart start dir + (word.length : Int) > (b.size : Int)) :
    b.place_word word start dir = some (false, b) := by
  unfold Board.place_word
  rw [if_pos h]

/-- C1, witness for the amended theorem: "CAT" at column 13 ACROSS overruns
(13 + 3 > 15) and is rejected with the board unchanged. -/
theorem place_word_overrun_returns_false_witness :
    Board.place_word Board.init ['C', 'A', 'T'] (7, 13) Direction.ACROSS =
      some (false, Board.init) :=
  place_word_overrun_returns_false Board.init ['C', 'A', 'T'] (7, 13)
    Direction.ACROSS (by decide)

/-! ### Claim C10: the empty word -/

/-- C10: for every board, direction, and start cell whose direction-advancing
coordinate (column for ACROSS, row for DOWN) is at most the board size,
placing the empty word returns `true` and leaves the board unchanged; the
start cell itself is never bounds- or emptiness-checked (the other coordinate
is completely unconstrained here). -/
theorem place_word_empty_word_succeeds (b : Board) (start : Int × Int)
    (dir : Direction) (h : checkedStart start dir ≤ (b.size : Int)) :
    b.place_word [] start dir = some (true, b) := by
  unfold Board.place_word
  rw [if_neg (by simp; omega)]
  cases dir <;> rfl

/-- C10, witness: the empty word at start `(-100, 3)` ACROSS succeeds on the
fresh board even though the start row is far outside the grid. -/
theorem place_word_empty_word_succeeds_witness :
    Board.init.place_word [] (-100, 3) Direction.ACROSS = some (true, Board.init) :=
  place_word_empty_word_succeeds Board.init (-100, 3) Direction.ACROSS (by decide)

/-! ### Claim C5: draw exhaustion -/

/-- C5: drawing `n` tiles from a pool holding `k < n` returns exactly the `k`
remaining tiles and empties the pool; a further `draw_tiles 1` on the emptied
pool returns no tiles; exhaustion is reported only through the short result,
never as a failure. -/
theorem draw_tiles_exhaustion (tm : TileManager) (n : Nat)
    (h : tm.pool.length < n) :
    (tm.draw_tiles n).1.length = tm.pool.length ∧
    (tm.draw_tiles n).2.pool = [] ∧
    ((tm.draw_tiles n).2.draw_tiles 1).1 = [] := by
  have hall := drawLoop_all tm.pool n (by omega)
  unfold TileManager.draw_tiles
  rw [hall]
  refine ⟨by simp, rfl, rfl⟩

/-- C5, witness: drawing 5 from a 3-tile pool returns 3 tiles, empties the
pool, and the next draw returns nothing. -/
theorem draw_tiles_exhaustion_witness :
    (3 : Nat) < 5 ∧
    (TileManager.draw_tiles { pool := ['A', 'B', 'C'] } 5).1.length = 3 ∧
    (TileManager.draw_tiles { pool := ['A', 'B', 'C'] } 5).2.pool = [] ∧
    ((TileManager.draw_tiles { pool := ['A', 'B', 'C'] } 5).2.draw_tiles 1).1 = [] :=
  ⟨by decide, draw_tiles_exhaustion { pool := ['A', 'B', 'C'] } 5 (by decide)⟩

/-! ### Claim C6: draw conservation -/

/-- C6: for every pool and every sequence of `draw_tiles` requests, the tiles
remaining in the pool plus the total number of tiles returned by the draws
equals the pool's initial total.  (Quantifying over all request lists covers
every intermediate point of a longer sequence.) -/
theorem draw_sequence_conserves_tiles (tm : TileManager) (ns : List Nat) :
    (tm.runDraws ns).1.pool.length + (tm.runDraws ns).2 = tm.pool.length := by
  induction ns generalizing tm with
  | nil => simp [TileManager.runDraws]
  | cons n ns ih =>
    have h1 := drawLoop_length tm.pool n
    have h2 := ih { pool := (drawLoop tm.pool n).2 }
    simp only [TileManager.runDraws, TileManager.draw_tiles] at h2 ⊢
    omega

/-! ### Claim C9: hand update is total -/

/-- C9: the hand update after a successful placement never errors: for each
letter of the word in order it removes the first occurrence from the hand when
present (`List.erase`) and silently skips the letter otherwise, so a hand
lacking some or all letters still yields a successful play; the turn ends in
the state with the placed board, the erased-and-refilled hand, and the drawn
tiles removed from the pool. -/
theorem player_turn_hand_update_total (gs : GameState) (word : List Char)
    (rowIn colIn : Int) (dirIn : String) (b2 : Board)
    (hw : word ≠ [])
    (hplace : gs.board.place_word word (rowIn - 1, colIn - 1)
      (if dirIn = "ACROSS" then Direction.ACROSS else Direction.DOWN) =
        some (true, b2)) :
    gs.player_turn word rowIn colIn dirIn =
      some { board := b2,
             tile_manager := (gs.tile_manager.draw_tiles word.length).2,
             human := (word.foldl (fun h ch => h.erase ch) gs.human) ++
               (gs.tile_manager.draw_tiles word.length).1,
             computer := gs.computer } := by
  unfold GameState.player_turn
  rw [if_neg hw]
  simp only [hplace, updateHand_eq, if_pos]

/-- C9, witness: a state whose hand is empty (so it lacks every letter of
"CAT") still plays "CAT" successfully; the hand update is a no-op and the
empty pool contributes no replacement tiles. -/
theorem player_turn_hand_update_total_witness :
    GameState.player_turn
        { board := Board.init, tile_manager := { pool := [] },
          human := [], computer := [] } ['C', 'A', 'T'] 8 8 "ACROSS" =
      some { board := boardCAT,
             tile_manager :=
               (({ pool := [] } : TileManager).draw_tiles ['C', 'A', 'T'].length).2,
             human := (['C', 'A', 'T'].foldl (fun h ch => h.erase ch) []) ++
               (({ pool := [] } : TileManager).draw_tiles ['C', 'A', 'T'].length).1,
             computer := [] } :=
  player_turn_hand_update_total
    { board := Board.init, tile_manager := { pool := [] },
      human := [], computer := [] }
    ['C', 'A', 'T'] 8 8 "ACROSS" boardCAT (by decide) (by decide)

/-! ### Bridging tile and set_tile to physical coordinates -/

theorem physOf_inv {s : Nat} {p : Int × Int} {r c : Nat}
    (h : physOf s p = some (r, c)) :
    pyIdx s p.1 = some r ∧ pyIdx s p.2 = some c := by
  unfold physOf at h
  cases h1 : pyIdx s p.1 with
  | none => rw [h1] at h; simp at h
  | some r' =>
    cases h2 : pyIdx s p.2 with
    | none => rw [h1, h2] at h; simp at h
    | some c' =>
      rw [h1, h2] at h
      injection h with h
      injection h with ha hb
      subst ha
      subst hb
      exact ⟨rfl, rfl⟩

theorem tile_char {b : Board} (hwf : b.WF) (p : Int × Int) :
    b.tile p = (physOf b.size p).map (fun rc => b.physTile rc.1 rc.2) := by
  obtain ⟨hlen, hrows⟩ := hwf
  unfold Board.tile physOf
  rw [hlen]
  cases h1 : pyIdx b.size p.1 with
  | none => rfl
  | some r =>
    have hr : r < b.tiles.length := by rw [hlen]; exact pyIdx_lt h1
    obtain ⟨row, hrow⟩ := lget_of_lt b.tiles r hr
    have hrlen : row.length = b.size := hrows row (lget_mem hrow)
    simp only [hrow, hrlen]
    cases h2 : pyIdx b.size p.2 with
    | none => rfl
    | some c =>
      have hc : c < row.length := by rw [hrlen]; exact pyIdx_lt h2
      obtain ⟨ch, hch⟩ := lget_of_lt row c hc
      simp only [hch, Option.map_some']
      have hrowD : b.tiles.getD r [] = row := by rw [lgetD_eq, hrow]; rfl
      have hchD : row.getD c '.' = ch := by rw [lgetD_eq, hch]; rfl
      unfold Board.physTile
      rw [hrowD, hchD]

theorem set_tile_eq_setPhys {b : Board} (hwf : b.WF) {p : Int × Int} {r c : Nat}
    (t : Char) (h : physOf b.size p = some (r, c)) :
    b.set_tile p t = some (b.setPhys r c t) := by
  obtain ⟨h1, h2⟩ := physOf_inv h
  obtain ⟨hlen, hrows⟩ := hwf
  unfold Board.set_tile Board.setPhys
  rw [hlen]
  have hr : r < b.tiles.length := by rw [hlen]; exact pyIdx_lt h1
  obtain ⟨row, hrow⟩ := lget_of_lt b.tiles r hr
  have hrlen : row.length = b.size := hrows row (lget_mem hrow)
  have hrowD : b.tiles.getD r [] = row := by rw [lgetD_eq, hrow]; rfl
  simp only [h1, hrow, hrlen, h2, hrowD]

theorem lset_getD_eq {α : Type} (l : List α) (n : Nat) (a d : α) (h : n < l.length) :
    (l.set n a).getD n d = a := by
  rw [lgetD_eq, lset_get?_eq l n a h]
  rfl

theorem lset_getD_ne {α : Type} (l : List α) (n m : Nat) (a d : α) (h : m ≠ n) :
    (l.set n a).getD m d = l.getD m d := by
  rw [lgetD_eq, lset_get?_ne l n m a h, ← lgetD_eq]

theorem tile_of_physOf {b : Board} (hwf : b.WF) {p : Int × Int} {r c : Nat}
    (h : physOf b.size p = some (r, c)) : b.tile p = some (b.physTile r c) := by
  rw [tile_char hwf, h]
  rfl

theorem setPhys_size (b : Board) (r c : Nat) (t : Char) :
    (b.setPhys r c t).size = b.size := rfl

theorem setPhys_WF {b : Board} (hwf : b.WF) {r : Nat} (c : Nat) (t : Char)
    (hr : r < b.size) : (b.setPhys r c t).WF := by
  obtain ⟨hlen, hrows⟩ := hwf
  have hr' : r < b.tiles.length := by rw [hlen]; exact hr
  obtain ⟨row0, hrow0⟩ := lget_of_lt b.tiles r hr'
  constructor
  · simp only [Board.setPhys, List.length_set]
    exact hlen
  · intro row hrow
    simp only [Board.setPhys] at hrow
    rcases lmem_set hrow with h | h
    · rw [h, List.length_set, lgetD_eq, hrow0]
      exact hrows row0 (lget_mem hrow0)
    · exact hrows row h

theorem physTile_setPhys {b : Board} (hwf : b.WF) {r c : Nat}
    (hr : r < b.size) (hc : c < b.size) (t : Char) (rq cq : Nat) :
    (b.setPhys r c t).physTile rq cq =
      if rq = r ∧ cq = c then t else b.physTile rq cq := by
  obtain ⟨hlen, hrows⟩ := hwf
  have hr' : r < b.tiles.length := by rw [hlen]; exact hr
  obtain ⟨row0, hrow0⟩ := lget_of_lt b.tiles r hr'
  have hrowD : b.tiles.getD r [] = row0 := by rw [lgetD_eq, hrow0]; rfl
  have hrlen : row0.length = b.size := hrows row0 (lget_mem hrow0)
  have hc' : c < row0.length := by rw [hrlen]; exact hc
  unfold Board.setPhys Board.physTile
  rw [hrowD]
  by_cases h1 : rq = r
  · subst h1
    have hset : (b.tiles.set rq (row0.set c t)).getD rq [] = row0.set c t := by
      rw [lgetD_eq, lset_get?_eq b.tiles rq (row0.set c t) hr']
      rfl
    rw [hset]
    by_cases h2 : cq = c
    · subst h2
      rw [if_pos ⟨rfl, rfl⟩]
      exact lset_getD_eq row0 cq t '.' hc'
    · rw [if_neg (fun hcon => h2 hcon.2)]
      rw [lset_getD_ne row0 c cq t '.' h2, hrowD]
  · rw [if_neg (fun hcon => h1 hcon.1)]
    rw [lset_getD_ne b.tiles r rq (row0.set c t) [] h1]

theorem nonEmptyCount_setPhys {b : Board} (hwf : b.WF) {r c : Nat}
    (hr : r < b.size) (hc : c < b.size) (t : Char) :
    (b.setPhys r c t).nonEmptyCount + (if b.physTile r c != '.' then 1 else 0) =
      b.nonEmptyCount + (if t != '.' then 1 else 0) := by
  obtain ⟨hlen, hrows⟩ := hwf
  have hr' : r < b.tiles.length := by rw [hlen]; exact hr
  obtain ⟨row0, hrow0⟩ := lget_of_lt b.tiles r hr'
  have hrowD : b.tiles.getD r [] = row0 := by rw [lgetD_eq, hrow0]; rfl
  have hrlen : row0.length = b.size := hrows row0 (lget_mem hrow0)
  have hc' : c < row0.length := by rw [hrlen]; exact hc
  obtain ⟨ch0, hch0⟩ := lget_of_lt row0 c hc'
  have hchD : b.physTile r c = ch0 := by
    unfold Board.physTile
    rw [hrowD, lgetD_eq, hch0]
    rfl
  have hrowCount := lcountP_set row0 c t ch0 (fun x => x != '.') hch0
  simp only at hrowCount
  have hsum := lsum_map_set b.tiles r (row0.set c t) row0
    (fun row => row.countP (fun x => x != '.')) hrow0
  simp only at hsum
  unfold Board.nonEmptyCount Board.setPhys
  dsimp only
  rw [hrowD, hchD]
  omega

theorem is_empty_char {b : Board} (hwf : b.WF) (p : Int × Int) :
    b.is_empty p =
      some (b.in_bounds p && (b.physTile p.1.toNat p.2.toNat == '.')) := by
  unfold Board.is_empty
  by_cases h : b.in_bounds p = true
  · rw [if_pos h, tile_char hwf, physOf_of_in_bounds h, h]
    simp
  · have hf : b.in_bounds p = false := by
      cases hb : b.in_bounds p
      · rfl
      · exact absurd hb h
    rw [hf]
    simp

theorem is_empty_true_parts {b : Board} (hwf : b.WF) {p : Int × Int}
    (h : b.is_empty p = some true) :
    b.in_bounds p = true ∧ physOf b.size p = some (p.1.toNat, p.2.toNat) ∧
      b.physTile p.1.toNat p.2.toNat = '.' ∧ b.tile p = some '.' := by
  rw [is_empty_char hwf] at h
  injection h with h
  have h1 : b.in_bounds p = true := by
    cases hb : b.in_bounds p
    · rw [hb] at h; simp at h
    · rfl
  rw [h1] at h
  simp only [Bool.true_and, beq_iff_eq] at h
  have h2 := physOf_of_in_bounds h1
  refine ⟨h1, h2, h, ?_⟩
  rw [tile_of_physOf hwf h2, h]

theorem set_tile_same {b : Board} (hwf : b.WF) {p : Int × Int} {t : Char}
    (h : b.tile p = some t) : b.set_tile p t = some b := by
  have hchar := tile_char hwf p
  rw [h] at hchar
  cases hp : physOf b.size p with
  | none => rw [hp] at hchar; simp at hchar
  | some rc =>
    obtain ⟨r, c⟩ := rc
    rw [hp] at hchar
    simp only [Option.map_some'] at hchar
    have ht : b.physTile r c = t := by
      injection hchar with h2
      exact h2.symm
    rw [set_tile_eq_setPhys hwf t hp]
    obtain ⟨hr, hc⟩ := physOf_bounds hp
    obtain ⟨hlen, hrows⟩ := hwf
    have hr' : r < b.tiles.length := by rw [hlen]; exact hr
    obtain ⟨row0, hrow0⟩ := lget_of_lt b.tiles r hr'
    have hrowD : b.tiles.getD r [] = row0 := by rw [lgetD_eq, hrow0]; rfl
    have hrlen : row0.length = b.size := hrows row0 (lget_mem hrow0)
    have hc' : c < row0.length := by rw [hrlen]; exact hc
    obtain ⟨ch0, hch0⟩ := lget_of_lt row0 c hc'
    have hch : ch0 = t := by
      have : b.physTile r c = ch0 := by
        unfold Board.physTile
        rw [hrowD, lgetD_eq, hch0]
        rfl
      rw [← this, ht]
    unfold Board.setPhys
    rw [hrowD]
    have hrowset : row0.set c t = row0 := lset_self (by rw [hch0, hch])
    rw [hrowset, lset_self hrow0]

/-! ### checkCells lemmas -/

theorem checkCells_true_mem {b : Board} {cells : List ((Int × Int) × Char)}
    (h : b.checkCells cells = some true) :
    ∀ pl ∈ cells, b.is_empty pl.1 = some true ∨
      (b.is_empty pl.1 = some false ∧ b.tile pl.1 = some pl.2) := by
  induction cells with
  | nil => intro pl hpl; simp at hpl
  | cons hd rest ih =>
    obtain ⟨p, l⟩ := hd
    intro pl hpl
    unfold Board.checkCells at h
    cases he : b.is_empty p with
    | none => rw [he] at h; simp at h
    | some e =>
      cases e with
      | true =>
        simp only [he, if_true] at h
        rcases List.mem_cons.1 hpl with h1 | h1
        · rw [h1]; exact Or.inl he
        · exact ih h pl h1
      | false =>
        simp only [he, Bool.false_eq_true, if_false] at h
        cases ht : b.tile p with
        | none => simp only [ht] at h; simp at h
        | some t =>
          simp only [ht] at h
          by_cases htl : t = l
          · rw [if_pos htl] at h
            rcases List.mem_cons.1 hpl with h1 | h1
            · rw [h1]
              exact Or.inr ⟨he, by rw [ht, htl]⟩
            · exact ih h pl h1
          · rw [if_neg htl] at h
            simp at h

theorem checkCells_true_of {b : Board} (hwf : b.WF)
    (cells : List ((Int × Int) × Char))
    (h : ∀ pl ∈ cells, b.is_empty pl.1 = some true ∨ b.tile pl.1 = some pl.2) :
    b.checkCells cells = some true := by
  induction cells with
  | nil => rfl
  | cons hd rest ih =>
    obtain ⟨p, l⟩ := hd
    have hrest : b.checkCells rest = some true :=
      ih (fun pl hpl => h pl (List.mem_cons_of_mem _ hpl))
    cases he : (b.in_bounds p && (b.physTile p.1.toNat p.2.toNat == '.')) with
    | true =>
      have hemp : b.is_empty p = some true := by rw [is_empty_char hwf, he]
      unfold Board.checkCells
      simp only [hemp, if_true]
      exact hrest
    | false =>
      have hemp : b.is_empty p = some false := by rw [is_empty_char hwf, he]
      rcases h (p, l) (List.mem_cons_self _ _) with h1 | h1
      · rw [hemp] at h1
        simp at h1
      · unfold Board.checkCells
        simp only [hemp, Bool.false_eq_true, if_false, h1, if_true]
        exact hrest

theorem checkCells_false_of {b : Board} (hwf : b.WF)
    (cells : List ((Int × Int) × Char))
    (hin : ∀ pl ∈ cells, b.in_bounds pl.1 = true)
    (hx : ∃ pl ∈ cells, b.is_empty pl.1 = some false ∧ b.tile pl.1 ≠ some pl.2) :
    b.checkCells cells = some false := by
  induction cells with
  | nil =>
    obtain ⟨pl, hpl, _⟩ := hx
    simp at hpl
  | cons hd rest ih =>
    obtain ⟨p, l⟩ := hd
    have hinp := hin (p, l) (List.mem_cons_self _ _)
    have hphys := physOf_of_in_bounds hinp
    have htile := tile_of_physOf hwf hphys
    cases hdot : (b.physTile p.1.toNat p.2.toNat == '.') with
    | true =>
      have hemp : b.is_empty p = some true := by
        rw [is_empty_char hwf, hinp, hdot]
        rfl
      have hxrest : ∃ pl ∈ rest, b.is_empty pl.1 = some false ∧
          b.tile pl.1 ≠ some pl.2 := by
        obtain ⟨pl, hpl, hw1, hw2⟩ := hx
        rcases List.mem_cons.1 hpl with h1 | h1
        · rw [h1] at hw1
          rw [hemp] at hw1
          simp at hw1
        · exact ⟨pl, h1, hw1, hw2⟩
      unfold Board.checkCells
      simp only [hemp, if_true]
      exact ih (fun pl hpl => hin pl (List.mem_cons_of_mem _ hpl)) hxrest
    | false =>
      have hemp : b.is_empty p = some false := by
        rw [is_empty_char hwf, hinp, hdot]
        rfl
      by_cases htl : b.physTile p.1.toNat p.2.toNat = l
      · have hxrest : ∃ pl ∈ rest, b.is_empty pl.1 = some false ∧
            b.tile pl.1 ≠ some pl.2 := by
          obtain ⟨pl, hpl, hw1, hw2⟩ := hx
          rcases List.mem_cons.1 hpl with h1 | h1
          · rw [h1] at hw2
            rw [htile, htl] at hw2
            simp at hw2
          · exact ⟨pl, h1, hw1, hw2⟩
        unfold Board.checkCells
        simp only [hemp, Bool.false_eq_true, if_false, htile]
        rw [if_pos htl]
        exact ih (fun pl hpl => hin pl (List.mem_cons_of_mem _ hpl)) hxrest
      · unfold Board.checkCells
        simp only [hemp, Bool.false_eq_true, if_false, htile]
        rw [if_neg htl]

/-! ### Span and zip lemmas -/

theorem spanCells_length (start : Int × Int) (dir : Direction) (n : Nat) :
    (spanCells start dir n).length = n := by
  cases dir <;> simp only [spanCells, List.length_map, List.length_range]

theorem spanCells_nodup (start : Int × Int) (dir : Direction) (n : Nat) :
    (spanCells start dir n).Nodup := by
  cases dir with
  | ACROSS =>
    simp only [spanCells]
    apply List.Nodup.map_on _ (List.nodup_range n)
    intro i hi j hj hij
    simp only [Prod.mk.injEq] at hij
    omega
  | DOWN =>
    simp only [spanCells]
    apply List.Nodup.map_on _ (List.nodup_range n)
    intro i hi j hj hij
    simp only [Prod.mk.injEq] at hij
    omega

theorem spanCells_get?_across (start : Int × Int) (n i : Nat) (h : i < n) :
    (spanCells start Direction.ACROSS n).get? i =
      some (start.1, start.2 + (i : Int)) := by
  unfold spanCells
  rw [List.get?_map, List.get?_range h]
  rfl

theorem spanCells_get?_down (start : Int × Int) (n i : Nat) (h : i < n) :
    (spanCells start Direction.DOWN n).get? i =
      some (start.1 + (i : Int), start.2) := by
  unfold spanCells
  rw [List.get?_map, List.get?_range h]
  rfl

theorem zip_mem_of_get {α β : Type} {l1 : List α} {l2 : List β} {i : Nat}
    {a : α} {b : β} (h1 : l1.get? i = some a) (h2 : l2.get? i = some b) :
    (a, b) ∈ l1.zip l2 := by
  induction l1 generalizing l2 i with
  | nil => simp [List.get?] at h1
  | cons x xs ih =>
    cases l2 with
    | nil => simp [List.get?] at h2
    | cons y ys =>
      cases i with
      | zero =>
        simp only [List.get?] at h1 h2
        injection h1 with h1
        injection h2 with h2
        rw [h1, h2] at *
        exact List.mem_cons_self _ _
      | succ j =>
        simp only [List.get?] at h1 h2
        exact List.mem_cons_of_mem _ (ih h1 h2)

theorem nodup_key {cells : List ((Int × Int) × Char)}
    (hnd : (cells.map Prod.fst).Nodup) {pl pl' : (Int × Int) × Char}
    (h : pl ∈ cells) (h' : pl' ∈ cells) (heq : pl.1 = pl'.1) : pl = pl' := by
  induction cells with
  | nil => simp at h
  | cons hd rest ih =>
    rw [List.map_cons, List.nodup_cons] at hnd
    rcases List.mem_cons.1 h with h1 | h1 <;> rcases List.mem_cons.1 h' with h2 | h2
    · rw [h1, h2]
    · exfalso
      apply hnd.1
      have hh : hd.1 = pl'.1 := by rw [← h1]; exact heq
      rw [hh]
      exact List.mem_map_of_mem Prod.fst h2
    · exfalso
      apply hnd.1
      have hh : hd.1 = pl.1 := by rw [← h2]; exact heq.symm
      rw [hh]
      exact List.mem_map_of_mem Prod.fst h1
    · exact ih hnd.2 h1 h2

/-! ### place_word decomposition -/

theorem place_word_of_parts {b : Board} {word : List Char} {start : Int × Int}
    {dir : Direction} {b2 : Board}
    (hbound : ¬ (checkedStart start dir + (word.length : Int) > (b.size : Int)))
    (hcheck : b.checkCells ((spanCells start dir word.length).zip word) = some true)
    (hwrite : b.writeCells ((spanCells start dir word.length).zip word) = some b2) :
    b.place_word word start dir = some (true, b2) := by
  unfold Board.place_word
  rw [if_neg hbound]
  simp only [hcheck, if_true, hwrite]

theorem place_word_true_parts {b : Board} {word : List Char} {start : Int × Int}
    {dir : Direction} {b2 : Board}
    (h : b.place_word word start dir = some (true, b2)) :
    ¬ (checkedStart start dir + (word.length : Int) > (b.size : Int)) ∧
    b.checkCells ((spanCells start dir word.length).zip word) = some true ∧
    b.writeCells ((spanCells start dir word.length).zip word) = some b2 := by
  unfold Board.place_word at h
  by_cases hb : checkedStart start dir + (word.length : Int) > (b.size : Int)
  · rw [if_pos hb] at h
    simp at h
  · rw [if_neg hb] at h
    cases hc : b.checkCells ((spanCells start dir word.length).zip word) with
    | none => rw [hc] at h; simp at h
    | some ok =>
      simp only [hc] at h
      cases ok with
      | false =>
        simp only [Bool.false_eq_true, if_false] at h
        simp at h
      | true =>
        simp only [if_true] at h
        cases hw : b.writeCells ((spanCells start dir word.length).zip word) with
        | none => rw [hw] at h; simp at h
        | some b1 =>
          simp only [hw, Option.some.injEq, Prod.mk.injEq, true_and] at h
          exact ⟨hb, rfl, by rw [h]⟩

/-! ### writeCells on matching cells -/

theorem writeCells_noop {b : Board} (hwf : b.WF)
    (cells : List ((Int × Int) × Char))
    (h : ∀ pl ∈ cells, b.tile pl.1 = some pl.2) :
    b.writeCells cells = some b := by
  induction cells with
  | nil => rfl
  | cons hd rest ih =>
    obtain ⟨p, l⟩ := hd
    have hset := set_tile_same hwf (h (p, l) (List.mem_cons_self _ _))
    unfold Board.writeCells
    simp only [hset]
    exact ih (fun pl hpl => h pl (List.mem_cons_of_mem _ hpl))

/-! ### Overrun exclusion -/

theorem no_overrun_of_in_bounds {b : Board} {word : List Char}
    {start : Int × Int} {dir : Direction} (hne : word ≠ [])
    (hin : ∀ p ∈ spanCells start dir word.length, b.in_bounds p = true) :
    ¬ (checkedStart start dir + (word.length : Int) > (b.size : Int)) := by
  have hlen : 0 < word.length := List.length_pos.2 hne
  cases dir with
  | ACROSS =>
    have hmem : (start.1, start.2 + ((word.length - 1 : Nat) : Int)) ∈
        spanCells start Direction.ACROSS word.length := by
      unfold spanCells
      exact List.mem_map.2 ⟨word.length - 1, List.mem_range.2 (by omega), rfl⟩
    rcases in_bounds_iff.1 (hin _ hmem) with ⟨_, _, _, h4⟩
    simp only [checkedStart]
    dsimp only at h4
    omega
  | DOWN =>
    have hmem : (start.1 + ((word.length - 1 : Nat) : Int), start.2) ∈
        spanCells start Direction.DOWN word.length := by
      unfold spanCells
      exact List.mem_map.2 ⟨word.length - 1, List.mem_range.2 (by omega), rfl⟩
    rcases in_bounds_iff.1 (hin _ hmem) with ⟨_, h2, _, _⟩
    simp only [checkedStart]
    dsimp only at h2
    omega

theorem physOf_of_tile_some {b : Board} (hwf : b.WF) {p : Int × Int} {t : Char}
    (h : b.tile p = some t) : ∃ r c, physOf b.size p = some (r, c) := by
  rw [tile_char hwf] at h
  cases hp : physOf b.size p with
  | none => rw [hp] at h; simp at h
  | some rc =>
    obtain ⟨r, c⟩ := rc
    exact ⟨r, c, rfl⟩

theorem no_overrun_of_tiles {b : Board} {word : List Char}
    {start : Int × Int} {dir : Direction} (hwf : b.WF) (hne : word ≠ [])
    (hmatch : ∀ pl ∈ (spanCells start dir word.length).zip word,
      b.tile pl.1 = some pl.2) :
    ¬ (checkedStart start dir + (word.length : Int) > (b.size : Int)) := by
  have hlen : 0 < word.length := List.length_pos.2 hne
  obtain ⟨lst, hlst⟩ := lget_of_lt word (word.length - 1) (by omega)
  cases dir with
  | ACROSS =>
    have hcell := spanCells_get?_across start word.length (word.length - 1) (by omega)
    have hmem := zip_mem_of_get hcell hlst
    have htl := hmatch _ hmem
    obtain ⟨r, c, hp⟩ := physOf_of_tile_some hwf htl
    have h2 := (physOf_inv hp).2
    have hr := pyIdx_range h2
    simp only [checkedStart]
    dsimp only at hr
    omega
  | DOWN =>
    have hcell := spanCells_get?_down start word.length (word.length - 1) (by omega)
    have hmem := zip_mem_of_get hcell hlst
    have htl := hmatch _ hmem
    obtain ⟨r, c, hp⟩ := physOf_of_tile_some hwf htl
    have h1 := (physOf_inv hp).1
    have hr := pyIdx_range h1
    simp only [checkedStart]
    dsimp only at hr
    omega

/-! ### Master write lemma -/

theorem setPhys_in_bounds (b : Board) (r c : Nat) (t : Char) (q : Int × Int) :
    (b.setPhys r c t).in_bounds q = b.in_bounds q := rfl

theorem lcountP_congr {α : Type} {l : List α} {p q : α → Bool}
    (h : ∀ x ∈ l, p x = q x) : l.countP p = l.countP q := by
  induction l with
  | nil => rfl
  | cons x xs ih =>
    rw [List.countP_cons, List.countP_cons,
      ih (fun y hy => h y (List.mem_cons_of_mem _ hy)),
      h x (List.mem_cons_self _ _)]

theorem not_empty_of_tile {b : Board} (hwf : b.WF) {p : Int × Int} {t : Char}
    (ht : b.tile p = some t) (hne : t ≠ '.') : b.is_empty p ≠ some true := by
  intro hcon
  obtain ⟨_, _, _, h4⟩ := is_empty_true_parts hwf hcon
  rw [ht] at h4
  injection h4 with h4
  exact hne h4

theorem physOf_ne_of_ne {b : Board} {p q : Int × Int}
    (hp : b.in_bounds p = true) (hq : b.in_bounds q = true) (hne : p ≠ q) :
    physOf b.size p ≠ physOf b.size q := by
  rw [physOf_of_in_bounds hp, physOf_of_in_bounds hq]
  intro hcon
  injection hcon with hcon
  exact hne (in_bounds_phys_inj hp hq hcon)

theorem writeCells_spec (cells : List ((Int × Int) × Char)) :
    ∀ b : Board, b.WF →
    (∀ pl ∈ cells, b.EmptyCell pl ∨ b.NoopCell pl) →
    (cells.map Prod.fst).Nodup →
    (∀ pl ∈ cells, ∀ pl' ∈ cells, b.EmptyCell pl → b.NoopCell pl' →
      physOf b.size pl'.1 ≠ physOf b.size pl.1) →
    ∃ b2, b.writeCells cells = some b2 ∧ b2.WF ∧ b2.size = b.size ∧
      b2.nonEmptyCount = b.nonEmptyCount +
        cells.countP (fun pl => (b.is_empty pl.1 == some true) && (pl.2 != '.')) ∧
      (∀ pl ∈ cells, b2.tile pl.1 = some pl.2) ∧
      (∀ q : Int × Int,
        (∀ pl ∈ cells, b.EmptyCell pl → physOf b.size q ≠ physOf b.size pl.1) →
        b2.tile q = b.tile q) := by
  induction cells with
  | nil =>
    intro b hwf _ _ _
    exact ⟨b, rfl, hwf, rfl, by simp, by simp, fun q _ => rfl⟩
  | cons hd rest ih =>
    intro b hwf hcell hnd hdisj
    obtain ⟨p0, l0⟩ := hd
    rw [List.map_cons, List.nodup_cons] at hnd
    rcases hcell (p0, l0) (List.mem_cons_self _ _) with hhd | hhd
    · -- head writes a fresh letter onto an empty in-bounds cell
      obtain ⟨hemp, hl0⟩ := hhd
      dsimp only at hemp hl0
      obtain ⟨hin, hphys, hdot, htile0⟩ := is_empty_true_parts hwf hemp
      obtain ⟨hr0, hc0⟩ := physOf_bounds hphys
      have hset : b.set_tile p0 l0 = some (b.setPhys p0.1.toNat p0.2.toNat l0) :=
        set_tile_eq_setPhys hwf l0 hphys
      set b1 := b.setPhys p0.1.toNat p0.2.toNat l0 with hb1
      have hwf1 : b1.WF := setPhys_WF hwf p0.2.toNat l0 hr0
      have hcount1 : b1.nonEmptyCount = b.nonEmptyCount + 1 := by
        rw [hb1]
        have := nonEmptyCount_setPhys hwf hr0 hc0 l0
        rw [hdot] at this
        have hd1 : (('.' : Char) != '.') = false := by decide
        have hd2 : (l0 != '.') = true := bne_iff_ne.2 hl0
        rw [hd1, hd2] at this
        simp at this
        omega
      have htile1 : ∀ q : Int × Int, b1.tile q =
          if physOf b.size q = some (p0.1.toNat, p0.2.toNat) then some l0
          else b.tile q := by
        intro q
        rw [tile_char hwf1 q, tile_char hwf q, hb1, setPhys_size]
        cases hq : physOf b.size q with
        | none => simp
        | some rc =>
          obtain ⟨rq, cq⟩ := rc
          simp only [Option.map_some']
          rw [physTile_setPhys hwf hr0 hc0 l0 rq cq]
          by_cases hrc : rq = p0.1.toNat ∧ cq = p0.2.toNat
          · rw [if_pos hrc, if_pos (by rw [hrc.1, hrc.2])]
          · rw [if_neg hrc, if_neg (by
              simp only [Option.some.injEq, Prod.mk.injEq]
              exact hrc)]
      have hie1 : ∀ q : Int × Int,
          physOf b.size q ≠ some (p0.1.toNat, p0.2.toNat) →
          b1.is_empty q = b.is_empty q := by
        intro q hq
        unfold Board.is_empty
        rw [hb1, setPhys_in_bounds, htile1 q, if_neg hq]
      have hcellne : ∀ pl ∈ rest, pl.1 ≠ p0 := by
        intro pl hpl hcon
        apply hnd.1
        dsimp only
        rw [← hcon]
        exact List.mem_map_of_mem Prod.fst hpl
      have hempfwd : ∀ pl ∈ rest, b.EmptyCell pl → b1.EmptyCell pl := by
        intro pl hpl hE
        obtain ⟨hE1, hE2⟩ := hE
        obtain ⟨hEin, hEphys, _, _⟩ := is_empty_true_parts hwf hE1
        refine ⟨?_, hE2⟩
        rw [hie1 pl.1 ?_]
        · exact hE1
        · rw [hEphys]
          have := physOf_ne_of_ne hEin hin (hcellne pl hpl)
          rw [hEphys, hphys] at this
          exact this
      have hnoopfwd : ∀ pl ∈ rest, b.NoopCell pl → b1.NoopCell pl := by
        intro pl hpl hN
        have hne := hdisj (p0, l0) (List.mem_cons_self _ _) pl
          (List.mem_cons_of_mem _ hpl) ⟨hemp, hl0⟩ hN
        unfold Board.NoopCell
        rw [htile1 pl.1, if_neg (by rw [← hphys]; exact hne)]
        exact hN
      have hempback : ∀ pl ∈ rest, b1.EmptyCell pl → b.EmptyCell pl := by
        intro pl hpl hE
        rcases hcell pl (List.mem_cons_of_mem _ hpl) with h | h
        · exact h
        · exfalso
          have hN1 := hnoopfwd pl hpl h
          obtain ⟨hE1, hE2⟩ := hE
          obtain ⟨_, _, _, h4⟩ := is_empty_true_parts hwf1 hE1
          rw [hN1] at h4
          injection h4 with h4
          exact hE2 h4
      have hnoopback : ∀ pl ∈ rest, b1.NoopCell pl → b.NoopCell pl := by
        intro pl hpl hN
        rcases hcell pl (List.mem_cons_of_mem _ hpl) with h | h
        · exfalso
          have hE1 := hempfwd pl hpl h
          obtain ⟨hE11, hE12⟩ := hE1
          obtain ⟨_, _, _, h4⟩ := is_empty_true_parts hwf1 hE11
          rw [hN] at h4
          injection h4 with h4
          exact hE12 h4
        · exact h
      have hcell1 : ∀ pl ∈ rest, b1.EmptyCell pl ∨ b1.NoopCell pl := by
        intro pl hpl
        rcases hcell pl (List.mem_cons_of_mem _ hpl) with h | h
        · exact Or.inl (hempfwd pl hpl h)
        · exact Or.inr (hnoopfwd pl hpl h)
      have hdisj1 : ∀ pl ∈ rest, ∀ pl' ∈ rest, b1.EmptyCell pl →
          b1.NoopCell pl' → physOf b1.size pl'.1 ≠ physOf b1.size pl.1 := by
        intro pl hpl pl' hpl' hE hN
        have hE0 := hempback pl hpl hE
        have hN0 := hnoopback pl' hpl' hN
        have := hdisj pl (List.mem_cons_of_mem _ hpl) pl'
          (List.mem_cons_of_mem _ hpl') hE0 hN0
        rw [hb1, setPhys_size]
        exact this
      obtain ⟨b2, hw2, hwf2, hsz2, hcount2, htm2, hunch2⟩ :=
        ih b1 hwf1 hcell1 hnd.2 hdisj1
      have hwrite : b.writeCells ((p0, l0) :: rest) = some b2 := by
        unfold Board.writeCells
        simp only [hset]
        exact hw2
      have hsz1 : b1.size = b.size := by rw [hb1, setPhys_size]
      have hpredrest : rest.countP
            (fun pl => (b1.is_empty pl.1 == some true) && (pl.2 != '.')) =
          rest.countP
            (fun pl => (b.is_empty pl.1 == some true) && (pl.2 != '.')) := by
        apply lcountP_congr
        intro pl hpl
        rcases hcell pl (List.mem_cons_of_mem _ hpl) with h | h
        · have hE1 := h.1
          have hE1' := (hempfwd pl hpl h).1
          rw [hE1, hE1']
        · by_cases hdot2 : pl.2 = '.'
          · have hb : (pl.2 != '.') = false := by
              rw [hdot2]
              decide
            rw [hb, Bool.and_false, Bool.and_false]
          · have hN1 := hnoopfwd pl hpl h
            have hx1 : b.is_empty pl.1 ≠ some true := not_empty_of_tile hwf h hdot2
            have hx2 : b1.is_empty pl.1 ≠ some true :=
              not_empty_of_tile hwf1 hN1 hdot2
            rw [beq_eq_false_iff_ne.2 hx1, beq_eq_false_iff_ne.2 hx2]
      have hpredhd : ((b.is_empty p0 == some true) && (l0 != '.')) = true := by
        rw [hemp, beq_self_eq_true, Bool.true_and]
        exact bne_iff_ne.2 hl0
      refine ⟨b2, hwrite, hwf2, by rw [hsz2, hsz1], ?_, ?_, ?_⟩
      · rw [List.countP_cons]
        dsimp only
        rw [hpredhd, if_pos rfl]
        rw [hcount2, hpredrest, hcount1]
        omega
      · intro pl hpl
        rcases List.mem_cons.1 hpl with h | h
        · rw [h]
          dsimp only
          have hq0 : ∀ pl' ∈ rest, b1.EmptyCell pl' →
              physOf b1.size p0 ≠ physOf b1.size pl'.1 := by
            intro pl' hpl' hE
            have hE0 := hempback pl' hpl' hE
            obtain ⟨hEin, hEphys, _, _⟩ := is_empty_true_parts hwf hE0.1
            rw [hsz1, hphys, hEphys]
            have := physOf_ne_of_ne hin hEin (fun hcon => hcellne pl' hpl' hcon.symm)
            rw [hphys, hEphys] at this
            exact this
          rw [hunch2 p0 hq0, htile1 p0, if_pos hphys]
        · exact htm2 pl h
      · intro q hq
        have hqne : physOf b.size q ≠ some (p0.1.toNat, p0.2.toNat) := by
          rw [← hphys]
          exact hq (p0, l0) (List.mem_cons_self _ _) ⟨hemp, hl0⟩
        have hq1 : ∀ pl ∈ rest, b1.EmptyCell pl →
            physOf b1.size q ≠ physOf b1.size pl.1 := by
          intro pl hpl hE
          rw [hsz1]
          exact hq pl (List.mem_cons_of_mem _ hpl) (hempback pl hpl hE)
        rw [hunch2 q hq1, htile1 q, if_neg hqne]
    · -- head rewrites an already matching cell: the board does not change
      have hset : b.set_tile p0 l0 = some b := set_tile_same hwf hhd
      obtain ⟨b2, hw2, hwf2, hsz2, hcount2, htm2, hunch2⟩ :=
        ih b hwf (fun pl hpl => hcell pl (List.mem_cons_of_mem _ hpl)) hnd.2
          (fun pl hpl pl' hpl' hE hN =>
            hdisj pl (List.mem_cons_of_mem _ hpl) pl'
              (List.mem_cons_of_mem _ hpl') hE hN)
      have hwrite : b.writeCells ((p0, l0) :: rest) = some b2 := by
        unfold Board.writeCells
        simp only [hset]
        exact hw2
      have hpredhd : ((b.is_empty p0 == some true) && (l0 != '.')) = false := by
        by_cases hdot2 : l0 = '.'
        · have hb : (l0 != '.') = false := by
            rw [hdot2]
            decide
          rw [hb, Bool.and_false]
        · rw [beq_eq_false_iff_ne.2 (not_empty_of_tile hwf hhd hdot2),
            Bool.false_and]
      refine ⟨b2, hwrite, hwf2, hsz2, ?_, ?_, ?_⟩
      · rw [List.countP_cons]
        dsimp only
        rw [hpredhd, if_neg Bool.false_ne_true]
        rw [hcount2]
        omega
      · intro pl hpl
        rcases List.mem_cons.1 hpl with h | h
        · rw [h]
          dsimp only
          have hq0 : ∀ pl' ∈ rest, b.EmptyCell pl' →
              physOf b.size p0 ≠ physOf b.size pl'.1 := by
            intro pl' hpl' hE
            exact hdisj pl' (List.mem_cons_of_mem _ hpl') (p0, l0)
              (List.mem_cons_self _ _) hE hhd
          rw [hunch2 p0 hq0]
          exact hhd
        · exact htm2 pl h
      · intro q hq
        exact hunch2 q (fun pl hpl hE => hq pl (List.mem_cons_of_mem _ hpl) hE)

/-! ### Glue between place_word success and the master write lemma -/

theorem mem_zip_span {start : Int × Int} {dir : Direction} {word : List Char}
    {pl : (Int × Int) × Char}
    (h : pl ∈ (spanCells start dir word.length).zip word) :
    pl.1 ∈ spanCells start dir word.length ∧ pl.2 ∈ word := by
  obtain ⟨p, l⟩ := pl
  exact List.of_mem_zip h

theorem zip_map_fst (start : Int × Int) (dir : Direction) (word : List Char) :
    ((spanCells start dir word.length).zip word).map Prod.fst =
      spanCells start dir word.length := by
  apply List.map_fst_zip
  rw [spanCells_length]

theorem is_empty_true_of_tile {b : Board} (hwf : b.WF) {p : Int × Int}
    (hin : b.in_bounds p = true) (ht : b.tile p = some '.') :
    b.is_empty p = some true := by
  have h2 : b.tile p = some (b.physTile p.1.toNat p.2.toNat) := by
    rw [tile_char hwf, physOf_of_in_bounds hin]
    rfl
  rw [ht] at h2
  injection h2 with h2
  rw [is_empty_char hwf, hin, ← h2]
  simp

theorem cells_empty_or_noop {b : Board} (hwf : b.WF)
    {cells : List ((Int × Int) × Char)}
    (h : b.checkCells cells = some true) :
    ∀ pl ∈ cells, b.EmptyCell pl ∨ b.NoopCell pl := by
  intro pl hpl
  rcases checkCells_true_mem h pl hpl with h1 | h1
  · by_cases hdot : pl.2 = '.'
    · right
      obtain ⟨_, _, _, h4⟩ := is_empty_true_parts hwf h1
      unfold Board.NoopCell
      rw [h4, hdot]
    · exact Or.inl ⟨h1, hdot⟩
  · exact Or.inr h1.2

theorem disj_of_dotfree {b : Board} (hwf : b.WF)
    {cells : List ((Int × Int) × Char)}
    (hdf : ∀ pl ∈ cells, pl.2 ≠ '.') :
    ∀ pl ∈ cells, ∀ pl' ∈ cells, b.EmptyCell pl → b.NoopCell pl' →
      physOf b.size pl'.1 ≠ physOf b.size pl.1 := by
  intro pl hpl pl' hpl' hE hN hcon
  obtain ⟨hE1, hE2⟩ := hE
  obtain ⟨hin, hphys, hdot, _⟩ := is_empty_true_parts hwf hE1
  rw [hphys] at hcon
  have h2 := tile_of_physOf hwf hcon
  rw [hN, hdot] at h2
  injection h2 with h2
  exact hdf pl' hpl' h2

theorem disj_of_in_bounds {b : Board} (hwf : b.WF)
    {cells : List ((Int × Int) × Char)}
    (hnd : (cells.map Prod.fst).Nodup)
    (hin : ∀ pl ∈ cells, b.in_bounds pl.1 = true) :
    ∀ pl ∈ cells, ∀ pl' ∈ cells, b.EmptyCell pl → b.NoopCell pl' →
      physOf b.size pl'.1 ≠ physOf b.size pl.1 := by
  intro pl hpl pl' hpl' hE hN
  by_cases hq : pl'.1 = pl.1
  · exfalso
    have heq := nodup_key hnd hpl' hpl hq
    rw [heq] at hN
    obtain ⟨hE1, hE2⟩ := hE
    obtain ⟨_, _, _, h4⟩ := is_empty_true_parts hwf hE1
    rw [hN] at h4
    injection h4 with h4
    exact hE2 h4
  · exact physOf_ne_of_ne (hin pl' hpl') (hin pl hpl) hq

theorem place_word_success_spec {b : Board} {word : List Char}
    {start : Int × Int} {dir : Direction} {b2 : Board} (hwf : b.WF)
    (h : b.place_word word start dir = some (true, b2))
    (hdisj : ∀ pl ∈ (spanCells start dir word.length).zip word,
      ∀ pl' ∈ (spanCells start dir word.length).zip word,
      b.EmptyCell pl → b.NoopCell pl' →
      physOf b.size pl'.1 ≠ physOf b.size pl.1) :
    b2.WF ∧ b2.size = b.size ∧
    b2.nonEmptyCount = b.nonEmptyCount +
      ((spanCells start dir word.length).zip word).countP
        (fun pl => (b.is_empty pl.1 == some true) && (pl.2 != '.')) ∧
    (∀ pl ∈ (spanCells start dir word.length).zip word,
      b2.tile pl.1 = some pl.2) ∧
    (∀ q : Int × Int, (∀ pl ∈ (spanCells start dir word.length).zip word,
        b.EmptyCell pl → physOf b.size q ≠ physOf b.size pl.1) →
      b2.tile q = b.tile q) := by
  obtain ⟨hb, hc, hw⟩ := place_word_true_parts h
  have hnd : (((spanCells start dir word.length).zip word).map Prod.fst).Nodup := by
    rw [zip_map_fst]
    exact spanCells_nodup start dir word.length
  obtain ⟨b2', hw', hwf', hsz', hcount', htm', hunch'⟩ :=
    writeCells_spec _ b hwf (cells_empty_or_noop hwf hc) hnd hdisj
  rw [hw] at hw'
  injection hw' with he
  rw [← he] at hwf' hsz' hcount' htm' hunch'
  exact ⟨hwf', hsz', hcount', htm', hunch'⟩

/-! ### Claim C3: conflict rejection -/

/-- C3: for a word whose span lies fully on the board, if some span cell is
occupied (not empty) by a letter different from the corresponding letter of
the word, `place_word` returns `false` and the board object is byte-for-byte
unchanged: validation aborts before any write. -/
theorem place_word_conflict_rejected (b : Board) (word : List Char)
    (start : Int × Int) (dir : Direction) (hwf : b.WF)
    (hin : ∀ p ∈ spanCells start dir word.length, b.in_bounds p = true)
    (hconf : ∃ pl ∈ (spanCells start dir word.length).zip word,
      b.is_empty pl.1 = some false ∧ b.tile pl.1 ≠ some pl.2) :
    b.place_word word start dir = some (false, b) := by
  have hne : word ≠ [] := by
    intro he
    obtain ⟨pl, hpl, _⟩ := hconf
    rw [he] at hpl
    simp at hpl
  have hbound := no_overrun_of_in_bounds hne hin
  have hin' : ∀ pl ∈ (spanCells start dir word.length).zip word,
      b.in_bounds pl.1 = true := fun pl hpl => hin pl.1 (mem_zip_span hpl).1
  have hfalse := checkCells_false_of hwf _ hin' hconf
  unfold Board.place_word
  rw [if_neg hbound]
  simp only [hfalse, Bool.false_eq_true, if_false]

/-- C3, witness: on the board holding "CAT" at (7,7) ACROSS, playing "DOG" at
the same start is rejected with the board unchanged ('C' conflicts with 'D'). -/
theorem place_word_conflict_rejected_witness :
    boardCAT.place_word ['D', 'O', 'G'] (7, 7) Direction.ACROSS =
      some (false, boardCAT) :=
  place_word_conflict_rejected boardCAT ['D', 'O', 'G'] (7, 7) Direction.ACROSS
    (by decide) (by decide) (by decide)

/-! ### Claim C8: replay idempotence -/

/-- C8, counterexample.  The claim quantifies over every word; for the empty
word at start `(20, 0)` DOWN the board vacuously matches the (empty) span, yet
the first call already returns `false` because the length check fires on the
start row alone (20 + 0 > 15). -/
theorem place_word_empty_replay_cex :
    Board.init.place_word [] (20, 0) Direction.DOWN = some (false, Board.init) := by
  decide

/-- C8, amended: for every nonempty word, if the board already exactly matches
the span (every span cell reads the corresponding letter), `place_word`
returns `true` and the board is unchanged, so calling it twice with identical
arguments returns `true` both times and the board after the second call equals
the board before it. -/
theorem place_word_replay_idempotent (b : Board) (word : List Char)
    (start : Int × Int) (dir : Direction) (hwf : b.WF) (hne : word ≠ [])
    (hmatch : ∀ pl ∈ (spanCells start dir word.length).zip word,
      b.tile pl.1 = some pl.2) :
    b.place_word word start dir = some (true, b) := by
  have hbound := no_overrun_of_tiles hwf hne hmatch
  have hcheck := checkCells_true_of hwf _ (fun pl hpl => Or.inr (hmatch pl hpl))
  have hwrite := writeCells_noop hwf _ hmatch
  exact place_word_of_parts hbound hcheck hwrite

/-- C8, witness: replaying "CAT" at (7,7) ACROSS on the board that already
holds it returns `true` and leaves the board equal to itself. -/
theorem place_word_replay_idempotent_witness :
    boardCAT.place_word ['C', 'A', 'T'] (7, 7) Direction.ACROSS =
      some (true, boardCAT) :=
  place_word_replay_idempotent boardCAT ['C', 'A', 'T'] (7, 7) Direction.ACROSS
    (by decide) (by decide) (by decide)

/-! ### Claim C4: successful placement writes the span -/

/-- C4, counterexample.  The claim quantifies over every word whose span lies
fully on the board; for the empty word the span is empty (so it vacuously lies
on the board and has no occupied cells), yet at start `(0, 16)` ACROSS the
length check 16 + 0 > 15 makes `place_word` return `false`, not `true`. -/
theorem place_word_empty_overrun_cex :
    Board.init.place_word [] (0, 16) Direction.ACROSS =
      some (false, Board.init) := by
  decide

/-- C4, amended: for every nonempty word whose span lies fully on the board
and whose occupied span cells all match the corresponding letters,
`place_word` returns `true`; afterwards every span cell holds the
corresponding letter of the word, and every board cell outside the span is
unchanged. -/
theorem place_word_success_writes_span (b : Board) (word : List Char)
    (start : Int × Int) (dir : Direction) (hwf : b.WF) (hne : word ≠ [])
    (hin : ∀ p ∈ spanCells start dir word.length, b.in_bounds p = true)
    (hmatch : ∀ pl ∈ (spanCells start dir word.length).zip word,
      b.tile pl.1 = some '.' ∨ b.tile pl.1 = some pl.2) :
    ∃ b2, b.place_word word start dir = some (true, b2) ∧
      (∀ pl ∈ (spanCells start dir word.length).zip word,
        b2.tile pl.1 = some pl.2) ∧
      (∀ q : Int × Int, b.in_bounds q = true →
        q ∉ spanCells start dir word.length → b2.tile q = b.tile q) := by
  have hin' : ∀ pl ∈ (spanCells start dir word.length).zip word,
      b.in_bounds pl.1 = true := fun pl hpl => hin pl.1 (mem_zip_span hpl).1
  have hnd : (((spanCells start dir word.length).zip word).map Prod.fst).Nodup := by
    rw [zip_map_fst]
    exact spanCells_nodup start dir word.length
  have hcellOK : ∀ pl ∈ (spanCells start dir word.length).zip word,
      b.EmptyCell pl ∨ b.NoopCell pl := by
    intro pl hpl
    rcases hmatch pl hpl with h1 | h1
    · by_cases hdot : pl.2 = '.'
      · right
        unfold Board.NoopCell
        rw [h1, hdot]
      · exact Or.inl ⟨is_empty_true_of_tile hwf (hin' pl hpl) h1, hdot⟩
    · exact Or.inr h1
  have hdisj := disj_of_in_bounds hwf hnd hin'
  obtain ⟨b2, hw, hwf2, hsz2, hcount2, htm2, hunch2⟩ :=
    writeCells_spec _ b hwf hcellOK hnd hdisj
  have hcheck := checkCells_true_of hwf
    ((spanCells start dir word.length).zip word) (fun pl hpl => by
      rcases hmatch pl hpl with h1 | h1
      · by_cases hdot : pl.2 = '.'
        · right
          rw [h1, hdot]
        · exact Or.inl (is_empty_true_of_tile hwf (hin' pl hpl) h1)
      · exact Or.inr h1)
  have hbound := no_overrun_of_in_bounds hne hin
  refine ⟨b2, place_word_of_parts hbound hcheck hw, htm2, ?_⟩
  intro q hinq hnotin
  apply hunch2
  intro pl hpl hE
  obtain ⟨hE1, _⟩ := hE
  obtain ⟨hEin, _, _, _⟩ := is_empty_true_parts hwf hE1
  apply physOf_ne_of_ne hinq hEin
  intro hcon
  apply hnotin
  rw [hcon]
  exact (mem_zip_span hpl).1

/-- C4, witness: "CAT" at (7,7) ACROSS on the fresh board succeeds, the three
span cells hold 'C','A','T' afterwards, and everything else is untouched. -/
theorem place_word_success_writes_span_witness :
    ∃ b2, Board.init.place_word ['C', 'A', 'T'] (7, 7) Direction.ACROSS =
        some (true, b2) ∧
      (∀ pl ∈ (spanCells (7, 7) Direction.ACROSS
          ['C', 'A', 'T'].length).zip ['C', 'A', 'T'],
        b2.tile pl.1 = some pl.2) ∧
      (∀ q : Int × Int, Board.init.in_bounds q = true →
        q ∉ spanCells (7, 7) Direction.ACROSS ['C', 'A', 'T'].length →
        b2.tile q = Board.init.tile q) :=
  place_word_success_writes_span Board.init ['C', 'A', 'T'] (7, 7)
    Direction.ACROSS (by decide) (by decide) (by decide) (by decide)

/-! ### Claim C7: conservation of placement -/

/-- C7, counterexample.  The claim counts every word letter landing on a
previously-empty cell; the word "." (the empty-cell marker is a perfectly
legal character for `place_word`) placed on the empty cell (0,0) succeeds,
lands one letter on a previously-empty cell, yet the non-empty count increase
is 0 because the written character is the empty marker itself: the board is
returned unchanged. -/
theorem place_word_dot_word_count_cex :
    Board.init.place_word ['.'] (0, 0) Direction.ACROSS =
      some (true, Board.init) ∧
    (spanCells (0, 0) Direction.ACROSS 1).countP
      (fun p => Board.init.is_empty p == some true) = 1 ∧
    Board.init.nonEmptyCount = 0 := by
  refine ⟨by decide, by decide, by decide⟩

/-- C7, amended: for every word containing no '.' character, every successful
`place_word` call increases the count of non-empty cells by exactly the number
of span cells that were previously empty (letters landing on already-matching
occupied cells, including wrapped-around ones, contribute 0). -/
theorem place_word_count_increase (b : Board) (word : List Char)
    (start : Int × Int) (dir : Direction) (b2 : Board) (hwf : b.WF)
    (hdf : ∀ ch ∈ word, ch ≠ '.')
    (h : b.place_word word start dir = some (true, b2)) :
    b2.nonEmptyCount = b.nonEmptyCount +
      (spanCells start dir word.length).countP
        (fun p => b.is_empty p == some true) := by
  have hdf' : ∀ pl ∈ (spanCells start dir word.length).zip word, pl.2 ≠ '.' :=
    fun pl hpl => hdf pl.2 (mem_zip_span hpl).2
  obtain ⟨_, _, hcount, _, _⟩ :=
    place_word_success_spec hwf h (disj_of_dotfree hwf hdf')
  rw [hcount]
  congr 1
  have h1 : ((spanCells start dir word.length).zip word).countP
      (fun pl => (b.is_empty pl.1 == some true) && (pl.2 != '.')) =
      ((spanCells start dir word.length).zip word).countP
      (fun pl => b.is_empty pl.1 == some true) := by
    apply lcountP_congr
    intro pl hpl
    rw [bne_iff_ne.2 (hdf' pl hpl), Bool.and_true]
  rw [h1]
  have h2 := List.countP_map (fun p => b.is_empty p == some true) Prod.fst
    ((spanCells start dir word.length).zip word)
  rw [zip_map_fst] at h2
  rw [h2]
  exact lcountP_congr (fun x _ => rfl)

/-- C7, witness: the successful "CAT" placement on the fresh board raises the
non-empty count by the 3 previously-empty span cells. -/
theorem place_word_count_increase_witness :
    boardCAT.nonEmptyCount = Board.init.nonEmptyCount +
      (spanCells (7, 7) Direction.ACROSS ['C', 'A', 'T'].length).countP
        (fun p => Board.init.is_empty p == some true) :=
  place_word_count_increase Board.init ['C', 'A', 'T'] (7, 7) Direction.ACROSS
    boardCAT (by decide) (by decide) (by decide)

/-! ### Claim C2: tile conservation across a turn -/

/-- C2, counterexample.  Starting from a legal shuffle outcome (the identity
permutation of the standard 98-tile pool), the initial draw leaves the hand
[Z,Y,Y,X,W,W,V]; playing "CAT" — letters the hand does not hold — is accepted
by `player_turn`, puts 3 letters on the board, removes nothing from the hand
(the removal loop skips absent letters) and still draws 3 replacement tiles:
the total (pool + hands + board) jumps from 98 to 101, so the conservation
invariant claimed for every play sequence is false. -/
theorem player_turn_total_tiles_cex :
    (GameState.init init_tile_pool).totalTiles = 98 ∧
    (((GameState.init init_tile_pool).draw_player_tiles.player_turn
        ['C', 'A', 'T'] 8 8 "ACROSS").map GameState.totalTiles) = some 101 := by
  refine ⟨by decide, by decide⟩

/-- C2, amended: a turn through `player_turn` preserves the total tile count
(pool + both hands + letters on the board) provided the played word is
nonempty, contains no '.' character, its letters are all available in the
acting hand (with multiplicity), and every span cell was previously empty.
(In general a successful turn changes the total by the number of
previously-empty span cells minus the number of word letters actually removed
from the hand, which the deliberately unenforced hand check allows to be
nonzero.) -/
theorem player_turn_conserves_total_tiles (gs : GameState) (word : List Char)
    (rowIn colIn : Int) (dirIn : String) (gs2 : GameState)
    (hwf : gs.board.WF)
    (hne : word ≠ [])
    (hdf : ∀ ch ∈ word, ch ≠ '.')
    (hhand : ∀ ch ∈ word, word.count ch ≤ gs.human.count ch)
    (hempty : ∀ p ∈ spanCells (rowIn - 1, colIn - 1)
        (if dirIn = "ACROSS" then Direction.ACROSS else Direction.DOWN)
        word.length,
      gs.board.is_empty p = some true)
    (hrun : gs.player_turn word rowIn colIn dirIn = some gs2) :
    gs2.totalTiles = gs.totalTiles := by
  have hdf' : ∀ pl ∈ (spanCells (rowIn - 1, colIn - 1)
      (if dirIn = "ACROSS" then Direction.ACROSS else Direction.DOWN)
      word.length).zip word, pl.2 ≠ '.' :=
    fun pl hpl => hdf pl.2 (mem_zip_span hpl).2
  have hcellOK : ∀ pl ∈ (spanCells (rowIn - 1, colIn - 1)
      (if dirIn = "ACROSS" then Direction.ACROSS else Direction.DOWN)
      word.length).zip word,
      gs.board.EmptyCell pl ∨ gs.board.NoopCell pl := by
    intro pl hpl
    exact Or.inl ⟨hempty pl.1 (mem_zip_span hpl).1, hdf' pl hpl⟩
  have hnd : (((spanCells (rowIn - 1, colIn - 1)
      (if dirIn = "ACROSS" then Direction.ACROSS else Direction.DOWN)
      word.length).zip word).map Prod.fst).Nodup := by
    rw [zip_map_fst]
    exact spanCells_nodup _ _ _
  obtain ⟨b2, hw, hwf2, hsz2, hcount2, htm2, hunch2⟩ :=
    writeCells_spec _ gs.board hwf hcellOK hnd (disj_of_dotfree hwf hdf')
  have hin : ∀ p ∈ spanCells (rowIn - 1, colIn - 1)
      (if dirIn = "ACROSS" then Direction.ACROSS else Direction.DOWN)
      word.length, gs.board.in_bounds p = true :=
    fun p hp => (is_empty_true_parts hwf (hempty p hp)).1
  have hcheck := checkCells_true_of hwf
    ((spanCells (rowIn - 1, colIn - 1)
      (if dirIn = "ACROSS" then Direction.ACROSS else Direction.DOWN)
      word.length).zip word)
    (fun pl hpl => Or.inl (hempty pl.1 (mem_zip_span hpl).1))
  have hplace := place_word_of_parts (no_overrun_of_in_bounds hne hin) hcheck hw
  have hcountLen : b2.nonEmptyCount = gs.board.nonEmptyCount + word.length := by
    rw [hcount2]
    congr 1
    have hall : ∀ pl ∈ (spanCells (rowIn - 1, colIn - 1)
        (if dirIn = "ACROSS" then Direction.ACROSS else Direction.DOWN)
        word.length).zip word,
        ((gs.board.is_empty pl.1 == some true) && (pl.2 != '.')) =
          (fun _ : (Int × Int) × Char => true) pl := by
      intro pl hpl
      rw [hempty pl.1 (mem_zip_span hpl).1, beq_self_eq_true, Bool.true_and]
      exact bne_iff_ne.2 (hdf' pl hpl)
    rw [lcountP_congr hall, List.countP_true, List.length_zip,
      spanCells_length, Nat.min_self]
  unfold GameState.player_turn at hrun
  rw [if_neg hne] at hrun
  simp only [hplace, updateHand_eq, if_pos] at hrun
  injection hrun with hrun
  rw [← hrun]
  unfold GameState.totalTiles
  dsimp only
  have hdraw := drawLoop_length gs.tile_manager.pool word.length
  have hhandlen := foldl_erase_length word gs.human hhand
  unfold TileManager.draw_tiles
  dsimp only
  rw [List.length_append]
  rw [hcountLen]
  omega

/-- C2, witness: the post-draw state (hand [Z,Y,Y,X,W,W,V]) plays "WV", both
letters being in the hand, onto two empty cells: the total tile count is
conserved. -/
theorem player_turn_conserves_total_tiles_witness :
    gsAfterWV.totalTiles = gsStart.totalTiles :=
  player_turn_conserves_total_tiles gsStart ['W', 'V'] 8 8 "ACROSS" gsAfterWV
    (by decide) (by decide) (by decide) (by decide) (by decide) (by decide)
